import Mathlib

/-! Batch dispatch, retry and aggregation of `main.go`.

A shallow embedding of `callAPI`, `processConcurrently` and `writeResults`
from `main.go`.

* Go `error` values are modelled by `GoError` (message plus the error wrapped
  with `%w`, if any); a nil error is `none`.
* An input is a Go `string`, which need not be valid UTF-8: `GoString`. The
  request body is the JSON document, not its characters.
* Everything the outside world decides is an explicit argument: the outcome of
  every loop iteration of `callAPI` (`Outcome`), the interleaving of the
  dispatch loop and the goroutines (`List Action`), the outcome of the file
  operations of `writeResults` (`FileSys`).
* External calls that a claim observes (`time.Sleep`, `http.NewRequest`,
  `client.Do`) are recorded in a trace of `Event`s.
-/

namespace EntityResolution

/-! ## Constants (`main.go`, lines 17-24) -/

/-- Nanoseconds in `time.Second`. -/
def second : Nat := 1000000000

def batchSize : Nat := 100

def maxRetries : Nat := 3

/-- The constant `retryDelay = 1 * time.Second`, a `time.Duration` in nanoseconds. -/
def retryDelay : Nat := 1 * second

def apiEndpoint : String := "https://api.exa.ai/search"

def apiKey : String := "5ced1c0e-f8f4-49b3-94c5-d1d091a117ef"

/-! ## Data model (`main.go`, lines 26-50) -/

/-- One element of a Go `string` as `utf8.DecodeRuneInString` reads it: a rune,
or a byte that is not part of a valid UTF-8 sequence. -/
inductive GoChar where
  | rune (c : Char)
  | invalid (byte : Nat)
deriving DecidableEq, Repr

/-- A Go `string` that comes from outside (a CSV field): any sequence of
bytes, held as the runes and the invalid bytes it is made of. -/
structure GoString where
  chars : List GoChar
deriving DecidableEq, Repr

/-- A Go `string` that is valid UTF-8, from its text. -/
def goString (s : String) : GoString := ⟨s.toList.map GoChar.rune⟩

/-- The rune `encoding/json` writes for an element of a string: the rune
itself, U+FFFD (`utf8.RuneError`) for an invalid byte. -/
def GoChar.toRune : GoChar → Char
  | .rune c => c
  | .invalid _ => Char.ofNat 65533

/-- The text `encoding/json` writes for a Go `string`: every invalid byte is
replaced by U+FFFD, nothing else changes. -/
def coerceUTF8 (s : GoString) : String := String.mk (s.chars.map GoChar.toRune)

structure Contents where
  Text : Bool
deriving DecidableEq, Repr

structure RequestPayload where
  Query : GoString
  Category : String
  NumResults : Int
  Contents : Contents
deriving DecidableEq, Repr

structure ResponsePayload where
  Result : String
  Success : Bool
  Error : String
deriving DecidableEq, Repr

/-- A non-nil Go `error`: `leaf` carries a message only, `wrap` carries the
full message and the error wrapped by `%w`. -/
inductive GoError where
  | leaf (msg : String)
  | wrap (msg : String) (inner : GoError)
deriving DecidableEq, Repr

/-- The method `Error()` of a Go error. -/
def GoError.Error : GoError → String
  | .leaf msg => msg
  | .wrap msg _ => msg

/-- The method `Unwrap()` of a Go error (`errors.Unwrap`). -/
def GoError.Unwrap : GoError → Option GoError
  | .leaf _ => none
  | .wrap _ inner => some inner

/-- The error `fmt.Errorf(text + "%w", err)` for a non-nil `err`. -/
def errorfW (text : String) (err : GoError) : GoError :=
  .wrap (text ++ err.Error) err

structure ProcessResult where
  Input : GoString
  Response : ResponsePayload
  Error : Option GoError
deriving DecidableEq, Repr

/-- The zero value of `ResponsePayload` (`var response ResponsePayload`). -/
def ResponsePayload.zero : ResponsePayload := ⟨"", false, ""⟩

/-- The zero value of `ProcessResult`, the content of a fresh slot of
`make([]ProcessResult, n)`. -/
def ProcessResult.zero : ProcessResult := ⟨goString "", ResponsePayload.zero, none⟩

/-! ## The request payload and its JSON document -/

/-- The payload literal of `callAPI` (lines 119-126). -/
def payload (input : GoString) : RequestPayload :=
  { Query := input
    Category := "company"
    NumResults := 1
    Contents := { Text := true } }

/-- A JSON string, number or boolean. -/
inductive JsonScalar where
  | str (s : String)
  | num (n : Int)
  | bool (b : Bool)
deriving DecidableEq, Repr

/-- A member value of the request document: a scalar, or an object of
scalars. -/
inductive JsonValue where
  | scalar (v : JsonScalar)
  | object (members : List (String × JsonScalar))
deriving DecidableEq, Repr

/-- A JSON object: its members, name and value, in order. -/
structure JsonObject where
  members : List (String × JsonValue)
deriving DecidableEq, Repr

/-- The JSON document `encoding/json` produces for a `RequestPayload`: the
fields in declaration order under the names of their `json:` tags, the query
with its invalid bytes replaced by U+FFFD. The struct holds only strings, an
int and a bool, for which `encoding/json` has no error case. -/
def jsonEncode (p : RequestPayload) : JsonObject :=
  ⟨[("query", .scalar (.str (coerceUTF8 p.Query))),
    ("category", .scalar (.str p.Category)),
    ("numResults", .scalar (.num p.NumResults)),
    ("contents", .object [("text", .bool p.Contents.Text)])]⟩

/-- The call `json.Marshal(payload)`, which returns the document and an
error. -/
def jsonMarshal (p : RequestPayload) : Except GoError JsonObject :=
  .ok (jsonEncode p)

/-! ## The retry loop of `callAPI` -/

/-- The `*http.Request` built by lines 138-144, the header names as written
in the source. -/
structure Request where
  method : String
  url : String
  body : JsonObject
  headers : List (String × String)
deriving DecidableEq, Repr

/-- What one iteration of the retry loop meets in the outside world.
For a received response, `decode` is the effect of
`json.NewDecoder(resp.Body).Decode(&response)` on the variable `response`:
from its current content to its new content and the returned error. -/
inductive Outcome where
  | newRequestFails (err : GoError)
  | doFails (err : GoError)
  | response (status : Int) (decode : ResponsePayload → ResponsePayload × Option GoError)

/-- The external calls of `callAPI` that are observed. -/
inductive Event where
  | sleep (d : Nat)
  | newRequest (method url : String) (body : JsonObject)
  | doRequest (req : Request)
deriving DecidableEq, Repr

/-- The result of one loop iteration: the content of `response`, the value
assigned to `lastErr` when the iteration ends in `continue` (`none` when it
reaches `return response, nil`), and the external calls made. -/
structure Iteration where
  response : ResponsePayload
  err : Option GoError
  events : List Event

/-- The loop body after the back-off sleep (lines 138-165). -/
def attemptBody (o : Outcome) (jsonData : JsonObject) (response : ResponsePayload) : Iteration :=
  let ev := Event.newRequest "POST" apiEndpoint jsonData
  match o with
  | .newRequestFails err =>
    ⟨response, some (errorfW "creating request: " err), [ev]⟩
  | .doFails err =>
    let req : Request := ⟨"POST", apiEndpoint, jsonData,
      [("Content-Type", "application/json"), ("x-api-key", apiKey)]⟩
    ⟨response, some (errorfW "sending request: " err), [ev, .doRequest req]⟩
  | .response status decode =>
    let req : Request := ⟨"POST", apiEndpoint, jsonData,
      [("Content-Type", "application/json"), ("x-api-key", apiKey)]⟩
    if status ≠ 200 then
      ⟨response, some (.leaf ("unexpected status code: " ++ toString status)),
        [ev, .doRequest req]⟩
    else
      match decode response with
      | (response1, some err) =>
        ⟨response1, some (errorfW "decoding response: " err), [ev, .doRequest req]⟩
      | (response1, none) => ⟨response1, none, [ev, .doRequest req]⟩

/-- What `callAPI` returns, with the trace of its external calls. -/
structure CallResult where
  response : ResponsePayload
  err : Option GoError
  trace : List Event

/-- The error of line 168, `fmt.Errorf("after %d attempts: %w", maxRetries, lastErr)`.
`fmt` prints a nil operand of `%w` as `%!w(<nil>)` and wraps nothing. -/
def exhausted (lastErr : Option GoError) : GoError :=
  match lastErr with
  | some e => errorfW ("after " ++ toString maxRetries ++ " attempts: ") e
  | none => .leaf ("after " ++ toString maxRetries ++ " attempts: %!w(<nil>)")

/-- The head of the loop body (lines 134-136): the sleep before iteration
`attempt`, none before the first one. -/
def backoff (attempt : Nat) : List Event :=
  if attempt > 0 then [Event.sleep (attempt * retryDelay)] else []

/-- The loop `for attempt := 0; attempt < maxRetries; attempt++` (lines
133-166) followed by line 168. The first argument is `maxRetries - attempt`,
the number of iterations left; `net attempt` is what iteration `attempt`
meets. -/
def attemptLoop (net : Nat → Outcome) (jsonData : JsonObject) :
    Nat → Nat → ResponsePayload → Option GoError → List Event → CallResult
  | 0, _, response, lastErr, trace => ⟨response, some (exhausted lastErr), trace⟩
  | left + 1, attempt, response, _, trace =>
    let trace1 := trace ++ backoff attempt
    let it := attemptBody (net attempt) jsonData response
    match it.err with
    | none => ⟨it.response, none, trace1 ++ it.events⟩
    | some e =>
      attemptLoop net jsonData left (attempt + 1) it.response (some e) (trace1 ++ it.events)

/-- The function `callAPI` (lines 114-169). -/
def callAPI (net : Nat → Outcome) (input : GoString) : CallResult :=
  match jsonMarshal (payload input) with
  | .error err => ⟨ResponsePayload.zero, some (errorfW "marshaling JSON: " err), []⟩
  | .ok jsonData => attemptLoop net jsonData maxRetries 0 ResponsePayload.zero none []

/-- Whether an event is a call of `http.NewRequest`; each loop iteration makes
exactly one, so their number is the number of attempts. -/
def Event.isAttempt : Event → Bool
  | .newRequest _ _ _ => true
  | _ => false

/-- The number of attempts in a trace. -/
def attempts (trace : List Event) : Nat := trace.countP Event.isAttempt

/-! ## Observations on a run of `callAPI` -/

/-- The content of `response` when iteration `a` starts, all earlier
iterations having ended in `continue`. -/
def responseAt (net : Nat → Outcome) (input : GoString) : Nat → ResponsePayload
  | 0 => ResponsePayload.zero
  | a + 1 => (attemptBody (net a) (jsonEncode (payload input)) (responseAt net input a)).response

/-- Iteration `a` of the retry loop of `callAPI net input` (0-based), all
earlier iterations having ended in `continue`. Its `err` is the failure the
attempt observes, `none` for a clean success. -/
def attemptAt (net : Nat → Outcome) (input : GoString) (a : Nat) : Iteration :=
  attemptBody (net a) (jsonEncode (payload input)) (responseAt net input a)

/-- The content of `lastErr` when iteration `a` starts. -/
def lastErrAt (net : Nat → Outcome) (input : GoString) : Nat → Option GoError
  | 0 => none
  | a + 1 => (attemptAt net input a).err

/-- The trace of the first `m` iterations. -/
def traceOf (net : Nat → Outcome) (input : GoString) : Nat → List Event
  | 0 => []
  | m + 1 => (traceOf net input m ++ backoff m) ++ (attemptAt net input m).events

/-- The event immediately before the `k`-th attempt of a trace (`k` counted
from 1), `none` when nothing precedes it or the trace has fewer attempts.
The first argument is the event just passed. -/
def eventBefore : Option Event → List Event → Nat → Option Event
  | _, [], _ => none
  | prev, e :: es, k =>
    if e.isAttempt then
      match k with
      | 0 => none
      | 1 => prev
      | k + 2 => eventBefore (some e) es (k + 1)
    else eventBefore (some e) es k

/-- The request body an event carries, if it carries one. -/
def Event.body : Event → Option JsonObject
  | .sleep _ => none
  | .newRequest _ _ body => some body
  | .doRequest req => some req.body

/-! ## `processConcurrently` as a transition system -/

/-- Lines 189-190 of the goroutine: the local `result` once `callAPI` has
returned, for the item at `index`. -/
def workerResult (net : Nat → Nat → Outcome) (index : Nat) (input : GoString) : ProcessResult :=
  { Input := input
    Response := (callAPI (net index) input).response
    Error := (callAPI (net index) input).err }

/-- Where the dispatching goroutine stands in `processConcurrently`:
at the head of the `range` loop, before the send on `semaphore`, before the
`go` statement, in `wg.Wait()`, or past `return results`. -/
inductive Pc where
  | loopHead
  | acquire
  | spawn
  | wait
  | returned
deriving DecidableEq, Repr

/-- Where the work on one item stands. `idle`: not dispatched. `acquired`: the
dispatcher has sent on `semaphore` for it and not yet run `go`. `started`:
the goroutine exists, with its argument `input`. `computed`: `callAPI` has
returned and `result` is complete. `stored`: `results[index] = result` is
done. `released`: the deferred receive from `semaphore` is done. `finished`:
the deferred `wg.Done()` is done. -/
inductive Phase where
  | idle
  | acquired
  | started (input : GoString)
  | computed (result : ProcessResult)
  | stored
  | released
  | finished
deriving DecidableEq, Repr

/-- The state of a run of `processConcurrently`: the dispatcher's position and
loop index, the counter of `wg`, the number of elements in the channel
`semaphore`, the phase of every item, the slice `results`, and the log of the
external calls, each with the index of the item that made it. -/
structure State where
  pc : Pc
  next : Nat
  wg : Nat
  sem : Nat
  workers : List Phase
  results : List ProcessResult
  log : List (Nat × Event)
deriving DecidableEq, Repr

/-- The state after lines 173-179. -/
def init (inputs : List GoString) : State :=
  { pc := .loopHead
    next := 0
    wg := 0
    sem := 0
    workers := List.replicate inputs.length .idle
    results := List.replicate inputs.length ProcessResult.zero
    log := [] }

/-- Who moves next: the dispatcher or the goroutine of item `i`. -/
inductive Action where
  | main
  | worker (i : Nat)
deriving DecidableEq, Repr

/-- One step of the dispatcher or of one goroutine; `none` when that step is
blocked (send on a full channel, `wg.Wait()` with a positive counter) or the
goroutine does not exist or has ended. The call of `callAPI` is one step: it
touches nothing shared. -/
def step (inputs : List GoString) (net : Nat → Nat → Outcome) (s : State) : Action → Option State
  | .main =>
    match s.pc with
    | .loopHead =>
      if s.next < inputs.length then some { s with wg := s.wg + 1, pc := .acquire }
      else some { s with pc := .wait }
    | .acquire =>
      if s.sem < batchSize then
        some { s with sem := s.sem + 1, workers := s.workers.set s.next .acquired, pc := .spawn }
      else none
    | .spawn =>
      match inputs[s.next]? with
      | some input =>
        some { s with workers := s.workers.set s.next (.started input), next := s.next + 1,
                      pc := .loopHead }
      | none => none
    | .wait => if s.wg = 0 then some { s with pc := .returned } else none
    | .returned => none
  | .worker i =>
    match s.workers[i]? with
    | some (.started input) =>
      some { s with workers := s.workers.set i (.computed (workerResult net i input)),
                    log := s.log ++ (callAPI (net i) input).trace.map (fun e => (i, e)) }
    | some (.computed result) =>
      if i < s.results.length then
        some { s with results := s.results.set i result, workers := s.workers.set i .stored }
      else none
    | some .stored =>
      if 0 < s.sem then some { s with sem := s.sem - 1, workers := s.workers.set i .released }
      else none
    | some .released =>
      if 0 < s.wg then some { s with wg := s.wg - 1, workers := s.workers.set i .finished }
      else none
    | _ => none

/-- Runs a schedule from a state; `none` when one of its steps is blocked. -/
def exec (inputs : List GoString) (net : Nat → Nat → Outcome) : List Action → State → Option State
  | [], s => some s
  | a :: rest, s =>
    match step inputs net s a with
    | some s1 => exec inputs net rest s1
    | none => none

/-- A run of `processConcurrently` under a schedule. -/
def run (inputs : List GoString) (net : Nat → Nat → Outcome) (sched : List Action) : Option State :=
  exec inputs net sched (init inputs)

/-- The function `processConcurrently` (lines 172-197) under a schedule: the
slice it returns, `none` while the schedule has not reached `return results`. -/
def processConcurrently (inputs : List GoString) (net : Nat → Nat → Outcome)
    (sched : List Action) : Option (List ProcessResult) :=
  match run inputs net sched with
  | some s => if s.pc = .returned then some s.results else none
  | none => none

/-- Whether the item holds a slot of `semaphore`: sent for and not yet
received. -/
def Phase.holdsSlot : Phase → Bool
  | .acquired | .started _ | .computed _ | .stored => true
  | _ => false

/-- The number of workers let in by the semaphore and not yet released. -/
def inFlight (s : State) : Nat := s.workers.countP Phase.holdsSlot

/-- Whether the item is counted in `wg`: added and not yet done. -/
def Phase.counted : Phase → Bool
  | .acquired | .started _ | .computed _ | .stored | .released => true
  | _ => false

/-- Whether `callAPI` has returned for the item. -/
def Phase.called : Phase → Bool
  | .computed _ | .stored | .released | .finished => true
  | _ => false

/-- The steps the item still has to take. -/
def Phase.stepsLeft : Phase → Nat
  | .idle | .acquired | .started _ => 4
  | .computed _ => 3
  | .stored => 2
  | .released => 1
  | .finished => 0

/-- The steps the dispatcher still has to take. -/
def mainStepsLeft (n : Nat) (s : State) : Nat :=
  match s.pc with
  | .loopHead => 3 * (n - s.next) + 2
  | .acquire => 3 * (n - s.next) + 1
  | .spawn => 3 * (n - s.next)
  | .wait => 1
  | .returned => 0

/-- The steps a run still has to take before it returns. -/
def stepsLeft (n : Nat) (s : State) : Nat :=
  mainStepsLeft n s + (s.workers.map Phase.stepsLeft).sum

/-- The external calls of item `i` in a log. -/
def itemLog (log : List (Nat × Event)) (i : Nat) : List Event :=
  (log.filter (fun p => p.1 = i)).map Prod.snd

/-- The schedule that runs the items one after the other: dispatch the item,
let its goroutine run to its end, and so on; then wait and return. -/
def sequentialFrom : Nat → Nat → List Action
  | _, 0 => [.main, .main]
  | i, n + 1 =>
    [.main, .main, .main, .worker i, .worker i, .worker i, .worker i] ++ sequentialFrom (i + 1) n

/-- The sequential schedule for `n` items. -/
def sequentialSchedule (n : Nat) : List Action := sequentialFrom 0 n

/-! ## `writeResults` -/

/-- What the file system decides in `writeResults`: the error of `os.Create`
and the error of the `n`-th call of `writer.Write` (the header is call 0). -/
structure FileSys where
  create : Option GoError
  write : Nat → Option GoError

/-- What `writeResults` does: the rows passed to the CSV writer without error,
and the error returned. -/
structure Written where
  rows : List (List GoString)
  err : Option GoError
deriving DecidableEq, Repr

/-- The row built for one result (lines 217-234). -/
def record (result : ProcessResult) : List GoString :=
  let success := if result.Response.Success then "true" else "false"
  let record := [result.Input, goString result.Response.Result, goString success]
  match result.Error with
  | some err => record ++ [goString err.Error]
  | none =>
    if result.Response.Error ≠ "" then record ++ [goString result.Response.Error]
    else record ++ [goString ""]

/-- The loop over `results` (lines 216-239); `n` is the number of calls of
`writer.Write` made so far. -/
def writeRows (fs : FileSys) : List ProcessResult → Nat → List (List GoString) → Written
  | [], _, rows => ⟨rows, none⟩
  | result :: rest, n, rows =>
    match fs.write n with
    | some err => ⟨rows, some (errorfW "writing record: " err)⟩
    | none => writeRows fs rest (n + 1) (rows ++ [record result])

/-- The function `writeResults` (lines 200-242). -/
def writeResults (fs : FileSys) (results : List ProcessResult) : Written :=
  match fs.create with
  | some err => ⟨[], some (errorfW "creating file: " err)⟩
  | none =>
    match fs.write 0 with
    | some err => ⟨[], some (errorfW "writing header: " err)⟩
    | none => writeRows fs results 1 [["Input", "Result", "Success", "Error"].map goString]

/-- A file system on which every operation succeeds. -/
def healthyFs : FileSys := ⟨none, fun _ => none⟩

/-! ## The invariant of a run -/

/-- The trace of the call of `callAPI` for item `i`. -/
def itemTrace (inputs : List GoString) (net : Nat → Nat → Outcome) (i : Nat) : List Event :=
  match inputs[i]? with
  | some input => (callAPI (net i) input).trace
  | none => []

/-- What the phase `p` of item `i` says about the rest of the state. -/
def PhaseOk (inputs : List GoString) (net : Nat → Nat → Outcome) (s : State) (i : Nat) :
    Phase → Prop
  | .idle => s.next < i ∨ (s.next = i ∧ s.pc ≠ Pc.spawn)
  | .acquired => s.pc = Pc.spawn ∧ i = s.next
  | .started input => i < s.next ∧ inputs[i]? = some input
  | .computed result =>
    i < s.next ∧ ∃ input, inputs[i]? = some input ∧ result = workerResult net i input
  | .stored =>
    i < s.next ∧ ∃ input, inputs[i]? = some input ∧
      s.results[i]? = some (workerResult net i input)
  | .released =>
    i < s.next ∧ ∃ input, inputs[i]? = some input ∧
      s.results[i]? = some (workerResult net i input)
  | .finished =>
    i < s.next ∧ ∃ input, inputs[i]? = some input ∧
      s.results[i]? = some (workerResult net i input)

/-- The invariant of the reachable states of `processConcurrently`. -/
structure Invariant (inputs : List GoString) (net : Nat → Nat → Outcome) (s : State) : Prop where
  workers_len : s.workers.length = inputs.length
  results_len : s.results.length = inputs.length
  next_le : s.next ≤ inputs.length
  next_lt : s.pc = Pc.acquire ∨ s.pc = Pc.spawn → s.next < inputs.length
  next_eq : s.pc = Pc.wait ∨ s.pc = Pc.returned → s.next = inputs.length
  phase : ∀ (i : Nat) (p : Phase), s.workers[i]? = some p → PhaseOk inputs net s i p
  sem_eq : s.sem = inFlight s
  sem_le : s.sem ≤ batchSize
  wg_eq : s.wg = s.workers.countP Phase.counted + (if s.pc = Pc.acquire then 1 else 0)
  log_eq : ∀ (i : Nat) (p : Phase), s.workers[i]? = some p →
    itemLog s.log i = if p.called then itemTrace inputs net i else []
  ret : s.pc = Pc.returned → ∀ (i : Nat) (p : Phase), s.workers[i]? = some p → p = Phase.finished

/-- The results of the items of a list one after the other, the first item
having index `k`: what a run without concurrency would store. -/
def resultsFrom (net : Nat → Nat → Outcome) : Nat → List GoString → List ProcessResult
  | _, [] => []
  | k, input :: rest => workerResult net k input :: resultsFrom net (k + 1) rest

/-! ## Sample network behaviours -/

/-- A decoder for a body that holds all three fields of `ResponsePayload`. -/
def decodesTo (r : ResponsePayload) : ResponsePayload → ResponsePayload × Option GoError :=
  fun _ => (r, none)

/-- A decoder for a body that is not valid JSON: `response` is left as it is. -/
def decodeFails (err : GoError) : ResponsePayload → ResponsePayload × Option GoError :=
  fun r => (r, some err)

/-- The mixed scenario: item 0 fails twice and then succeeds, item 1 succeeds
at once, every other item fails on every attempt (item, then attempt). -/
def mixedNet : Nat → Nat → Outcome
  | 0, 0 => .doFails (.leaf "timeout")
  | 0, 1 => .response 503 (decodesTo ⟨"busy", false, "busy"⟩)
  | 0, _ => .response 200 (decodesTo ⟨"Acme Corp", true, ""⟩)
  | 1, _ => .response 200 (decodesTo ⟨"Bolt Ltd", true, ""⟩)
  | _, 0 => .doFails (.leaf "connection refused")
  | _, 1 => .response 500 (decodesTo ⟨"", false, ""⟩)
  | _, _ => .response 200 (decodeFails (.leaf "unexpected EOF"))

/-- The effect of `Decode(&response)` for a body with some of the three
members: a member that is present with the right type sets its field, a
member that is absent or has the wrong type leaves the field as it is, and
`err` is the type error reported, if any. -/
def decodeFields (result : Option String) (success : Option Bool) (error : Option String)
    (err : Option GoError) : ResponsePayload → ResponsePayload × Option GoError :=
  fun r => (⟨result.getD r.Result, success.getD r.Success, error.getD r.Error⟩, err)

/-- Attempt 1 is answered with status 200 and the body
`{"result":"stale","success":"yes","error":"old"}`, whose `success` has the
wrong type; every later attempt with status 200 and the body
`{"success":true}`. -/
def staleNet : Nat → Outcome
  | 0 => .response 200 (decodeFields (some "stale") none (some "old")
      (some (.leaf
        "json: cannot unmarshal string into Go struct field ResponsePayload.success of type bool")))
  | _ => .response 200 (decodeFields none (some true) none none)

/-- Three inputs. -/
def sampleInputs : List GoString := [goString "a", goString "b", goString "c"]

/-- One input. -/
def acmeInput : List GoString := [goString "acme"]

/-- A Go string that is not valid UTF-8: `a`, the byte 0xff, `b`. -/
def brokenText : GoString := ⟨[.rune (Char.ofNat 97), .invalid 255, .rune (Char.ofNat 98)]⟩

/-- Every call is answered with status 201 and a body that decodes. -/
def createdNet : Nat → Outcome :=
  fun _ => .response 201 (decodesTo ⟨"Acme Corp", true, ""⟩)

/-- Every call is answered with status 200 and a body in which the API reports
a failure of its own. -/
def apiRejectsNet : Nat → Nat → Outcome :=
  fun _ _ => .response 200 (decodesTo ⟨"", false, "no match"⟩)

/-- Item 1 is answered as in `mixedNet`; for every other item the network is
down. -/
def outageNet : Nat → Nat → Outcome :=
  fun i a => if i = 1 then mixedNet 1 a else .doFails (.leaf "network is down")

/-- A schedule for three items in which all three are in flight together and
end out of order. -/
def interleavedSchedule : List Action :=
  [.main, .main, .main, .main, .main, .main, .worker 1, .worker 0, .main, .main, .main, .main,
    .worker 2, .worker 2, .worker 1, .worker 1, .worker 1, .worker 0, .worker 0, .worker 0,
    .worker 2, .worker 2, .main]

/-! # Theorems -/

/-! ## The retry loop -/

theorem exists_of_ne_none {α : Type} {o : Option α} (h : o ≠ none) : ∃ x, o = some x := by
  cases o with
  | none => exact absurd rfl h
  | some x => exact ⟨x, rfl⟩

theorem attempts_append (xs ys : List Event) :
    attempts (xs ++ ys) = attempts xs + attempts ys := by
  simp [attempts, List.countP_append]

theorem attempts_backoff (a : Nat) : attempts (backoff a) = 0 := by
  unfold backoff attempts
  split <;> simp [Event.isAttempt]

theorem attempts_attemptBody (o : Outcome) (j : JsonObject) (r : ResponsePayload) :
    attempts (attemptBody o j r).events = 1 := by
  unfold attemptBody attempts
  cases o with
  | newRequestFails err => simp [Event.isAttempt]
  | doFails err => simp [Event.isAttempt]
  | response status decode =>
    simp only []
    split
    · simp [Event.isAttempt]
    · split <;> simp [Event.isAttempt]

theorem attempts_traceOf (net : Nat → Outcome) (input : GoString) (m : Nat) :
    attempts (traceOf net input m) = m := by
  induction m with
  | zero => simp [traceOf, attempts]
  | succ m ih =>
    simp [traceOf, attempts_append, attempts_backoff, attemptAt, attempts_attemptBody, ih]

/-- The loop, started in the state it has at iteration `a`, when every
remaining iteration fails. -/
theorem attemptLoop_exhausted (net : Nat → Outcome) (input : GoString) (left : Nat) :
    ∀ a : Nat, (∀ b, a ≤ b → b < a + left → (attemptAt net input b).err ≠ none) →
      attemptLoop net (jsonEncode (payload input)) left a (responseAt net input a)
          (lastErrAt net input a) (traceOf net input a)
        = ⟨responseAt net input (a + left), some (exhausted (lastErrAt net input (a + left))),
            traceOf net input (a + left)⟩ := by
  induction left with
  | zero => intro a _; simp [attemptLoop]
  | succ left ih =>
    intro a h
    have ha := h a (Nat.le_refl a) (by omega)
    obtain ⟨e, he⟩ := exists_of_ne_none ha
    have hstep := ih (a + 1) (fun b hb1 hb2 => h b (by omega) (by omega))
    have hadd : a + 1 + left = a + (left + 1) := by omega
    rw [hadd] at hstep
    rw [← hstep]
    unfold attemptAt at he
    simp only [attemptLoop, he]
    simp [lastErrAt, responseAt, traceOf, attemptAt, he]

/-- The loop, started in the state it has at iteration `a`, when iteration
`k` is the first one that succeeds. -/
theorem attemptLoop_success (net : Nat → Outcome) (input : GoString) (k : Nat) (left : Nat) :
    ∀ a : Nat, a ≤ k → k < a + left →
      (∀ b, a ≤ b → b < k → (attemptAt net input b).err ≠ none) →
      (attemptAt net input k).err = none →
      attemptLoop net (jsonEncode (payload input)) left a (responseAt net input a)
          (lastErrAt net input a) (traceOf net input a)
        = ⟨(attemptAt net input k).response, none, traceOf net input (k + 1)⟩ := by
  induction left with
  | zero => intro a h1 h2; omega
  | succ left ih =>
    intro a hak hk hfail hok
    by_cases heq : a = k
    · subst heq
      unfold attemptAt at hok
      simp only [attemptLoop, hok]
      simp [traceOf, attemptAt]
    · have ha := hfail a (Nat.le_refl a) (by omega)
      obtain ⟨e, he⟩ := exists_of_ne_none ha
      have hstep := ih (a + 1) (by omega) (by omega)
        (fun b hb1 hb2 => hfail b (by omega) hb2) hok
      rw [← hstep]
      unfold attemptAt at he
      simp only [attemptLoop, he]
      simp [lastErrAt, responseAt, traceOf, attemptAt, he]

theorem callAPI_unfold (net : Nat → Outcome) (input : GoString) :
    callAPI net input
      = attemptLoop net (jsonEncode (payload input)) maxRetries 0 (responseAt net input 0)
          (lastErrAt net input 0) (traceOf net input 0) := by
  simp [callAPI, jsonMarshal, responseAt, lastErrAt, traceOf]

/-- A clean success of the loop body is a response with status 200 whose
decoding returns no error. -/
theorem attemptBody_err_none (o : Outcome) (j : JsonObject) (r : ResponsePayload)
    (h : (attemptBody o j r).err = none) :
    ∃ decode, o = .response 200 decode ∧ (decode r).2 = none
      ∧ (attemptBody o j r).response = (decode r).1 := by
  cases o with
  | newRequestFails err => simp [attemptBody] at h
  | doFails err => simp [attemptBody] at h
  | response status decode =>
    refine ⟨decode, ?_⟩
    unfold attemptBody at h ⊢
    simp only [] at h ⊢
    split at h
    · simp at h
    · rename_i hs
      have hs2 : status = 200 := by simpa using hs
      subst hs2
      rcases hd : decode r with ⟨r1, _ | e⟩
      · simp [hd]
      · simp [hd] at h

/-- The trace of `callAPI` is the trace of its first `m` iterations, for
some `m` between 1 and `maxRetries`. -/
theorem callAPI_trace (net : Nat → Outcome) (input : GoString) :
    ∃ m, 1 ≤ m ∧ m ≤ maxRetries ∧ (callAPI net input).trace = traceOf net input m := by
  by_cases h : ∃ k, k < maxRetries ∧ (attemptAt net input k).err = none
  · refine ⟨Nat.find h + 1, by omega, (Nat.find_spec h).1, ?_⟩
    rw [callAPI_unfold, attemptLoop_success net input (Nat.find h) maxRetries 0 (Nat.zero_le _)
      (by have := (Nat.find_spec h).1; omega)
      (fun b _ hb hnone => Nat.find_min h hb ⟨by have := (Nat.find_spec h).1; omega, hnone⟩)
      (Nat.find_spec h).2]
  · refine ⟨maxRetries, by decide, Nat.le_refl _, ?_⟩
    rw [callAPI_unfold, attemptLoop_exhausted net input maxRetries 0
      (fun b _ hb hnone => h ⟨b, by omega, hnone⟩)]
    simp

theorem eventBefore_append_left (ys : List Event) :
    ∀ (xs : List Event) (prev : Option Event) (k : Nat), 1 ≤ k → k ≤ attempts xs →
      eventBefore prev (xs ++ ys) k = eventBefore prev xs k := by
  intro xs
  induction xs with
  | nil => intro prev k h1 h2; simp [attempts] at h2; omega
  | cons e es ih =>
    intro prev k h1 h2
    by_cases he : e.isAttempt = true
    · match k, h1 with
      | 1, _ => simp [eventBefore, he]
      | k + 2, _ =>
        have h3 : k + 1 ≤ attempts es := by
          simp [attempts, List.countP_cons, he] at h2 ⊢; omega
        simp [eventBefore, he, ih (some e) (k + 1) (by omega) h3]
    · have h3 : k ≤ attempts es := by
        simp [attempts, List.countP_cons, he] at h2 ⊢; omega
      simp [eventBefore, he, ih (some e) k h1 h3]

theorem eventBefore_append_right (ys : List Event) :
    ∀ (xs : List Event) (prev : Option Event) (k : Nat), attempts xs < k →
      ∃ p, (xs = [] → p = prev) ∧
        eventBefore prev (xs ++ ys) k = eventBefore p ys (k - attempts xs) := by
  intro xs
  induction xs with
  | nil => intro prev k _; exact ⟨prev, fun _ => rfl, by simp [attempts]⟩
  | cons e es ih =>
    intro prev k h
    by_cases he : e.isAttempt = true
    · have hc : attempts (e :: es) = attempts es + 1 := by
        simp [attempts, List.countP_cons, he]
      match k with
      | 0 => omega
      | 1 => omega
      | k + 2 =>
        obtain ⟨p, _, hp⟩ := ih (some e) (k + 1) (by omega)
        refine ⟨p, by simp, ?_⟩
        have hk : k + 2 - attempts (e :: es) = k + 1 - attempts es := by omega
        simp [eventBefore, he, hp, hk]
    · have hc : attempts (e :: es) = attempts es := by
        simp [attempts, List.countP_cons, he]
      obtain ⟨p, _, hp⟩ := ih (some e) k (by omega)
      refine ⟨p, by simp, ?_⟩
      simp [eventBefore, he, hp, hc]

theorem attemptBody_events_head (o : Outcome) (j : JsonObject) (r : ResponsePayload) :
    ∃ rest, (attemptBody o j r).events = Event.newRequest "POST" apiEndpoint j :: rest := by
  unfold attemptBody
  cases o with
  | newRequestFails err => exact ⟨_, rfl⟩
  | doFails err => exact ⟨_, rfl⟩
  | response status decode =>
    simp only []
    split
    · exact ⟨_, rfl⟩
    · split <;> exact ⟨_, rfl⟩

/-- In the trace of the first `m` iterations, nothing precedes the first
attempt and the sleep of `(k - 1) * retryDelay` precedes attempt `k >= 2`. -/
theorem eventBefore_traceOf (net : Nat → Outcome) (input : GoString) (m : Nat) :
    ∀ k, 1 ≤ k → k ≤ m →
      eventBefore none (traceOf net input m) k
        = if k = 1 then none else some (Event.sleep ((k - 1) * retryDelay)) := by
  induction m with
  | zero => intro k h1 h2; omega
  | succ m ih =>
    intro k h1 h2
    obtain ⟨rest, hrest⟩ := attemptBody_events_head (net m) (jsonEncode (payload input))
      (responseAt net input m)
    have htr : traceOf net input (m + 1)
        = traceOf net input m ++ (backoff m ++ (attemptAt net input m).events) := by
      simp [traceOf]
    rw [htr]
    by_cases hk : k ≤ m
    · rw [eventBefore_append_left _ _ _ _ h1 (by rw [attempts_traceOf]; exact hk)]
      exact ih k h1 hk
    · have hkm : k = m + 1 := by omega
      subst hkm
      obtain ⟨p, hp0, hp⟩ := eventBefore_append_right
        (backoff m ++ (attemptAt net input m).events) (traceOf net input m) none (m + 1)
        (by rw [attempts_traceOf]; omega)
      rw [hp, attempts_traceOf]
      have h1 : m + 1 - m = 1 := by omega
      rw [h1]
      unfold attemptAt
      rw [hrest]
      cases m with
      | zero =>
        have := hp0 (by simp [traceOf])
        subst this
        simp [backoff, eventBefore, Event.isAttempt]
      | succ m => simp [backoff, eventBefore, Event.isAttempt]

theorem body_traceOf (net : Nat → Outcome) (input : GoString) (m : Nat) :
    ∀ e ∈ traceOf net input m, ∀ b, e.body = some b → b = jsonEncode (payload input) := by
  induction m with
  | zero => simp [traceOf]
  | succ m ih =>
    intro e he b hb
    simp only [traceOf, List.mem_append] at he
    rcases he with (he | he) | he
    · exact ih e he b hb
    · unfold backoff at he
      split at he
      · simp at he; subst he; simp [Event.body] at hb
      · simp at he
    · unfold attemptAt attemptBody at he
      cases hn : net m with
      | newRequestFails err =>
        simp [hn] at he; subst he; simp [Event.body] at hb; exact hb.symm
      | doFails err =>
        simp [hn] at he
        rcases he with he | he <;> subst he <;> simp [Event.body] at hb <;> exact hb.symm
      | response status decode =>
        simp only [hn] at he
        split at he
        · simp at he
          rcases he with he | he <;> subst he <;> simp [Event.body] at hb <;> exact hb.symm
        · split at he <;> simp at he <;>
            rcases he with he | he <;> subst he <;> simp [Event.body] at hb <;> exact hb.symm

/-- As long as no response with status 200 has been received, `response` holds
its zero value. -/
theorem responseAt_untouched (net : Nat → Outcome) (input : GoString) (m : Nat)
    (h : ∀ a, a < m → ∀ d, net a ≠ .response 200 d) :
    responseAt net input m = ResponsePayload.zero := by
  induction m with
  | zero => rfl
  | succ m ih =>
    have hm := ih (fun a ha => h a (by omega))
    simp only [responseAt, hm]
    have hn := h m (by omega)
    cases hnet : net m with
    | newRequestFails e => simp [attemptBody]
    | doFails e => simp [attemptBody]
    | response status d =>
      have hs : status ≠ 200 := by
        intro hs
        subst hs
        exact hn d hnet
      simp [attemptBody, hs]

/-- The run of `callAPI` whose first clean success is at iteration `k - 1`. -/
theorem callAPI_success_at (net : Nat → Outcome) (input : GoString) (k : Nat)
    (hk1 : 1 ≤ k) (hk : k ≤ maxRetries)
    (hfail : ∀ a, a < k - 1 → (attemptAt net input a).err ≠ none)
    (hok : (attemptAt net input (k - 1)).err = none) :
    attempts (callAPI net input).trace = k ∧ (callAPI net input).err = none ∧
      (callAPI net input).trace = traceOf net input k ∧
      ∃ decode, net (k - 1) = .response 200 decode ∧
        (decode (responseAt net input (k - 1))).2 = none ∧
        (callAPI net input).response = (decode (responseAt net input (k - 1))).1 := by
  have hrun := attemptLoop_success net input (k - 1) maxRetries 0 (Nat.zero_le _) (by omega)
    (fun b _ hb => hfail b (by omega)) hok
  rw [← callAPI_unfold] at hrun
  have hk2 : k - 1 + 1 = k := by omega
  rw [hk2] at hrun
  obtain ⟨decode, hnet, hdec, hresp⟩ := attemptBody_err_none _ _ _ hok
  refine ⟨?_, ?_, ?_, decode, hnet, hdec, ?_⟩
  · rw [hrun, attempts_traceOf]
  · rw [hrun]
  · rw [hrun]
  · rw [hrun]; exact hresp

/-- A string that is valid UTF-8 is written as it is. -/
theorem coerceUTF8_goString (s : String) : coerceUTF8 (goString s) = s := by
  cases s with
  | mk data =>
    simp only [coerceUTF8, goString, String.toList, List.map_map]
    congr 1
    induction data with
    | nil => rfl
    | cons c cs ih => simp [GoChar.toRune, ih]

/-! ## Claims on `callAPI` -/

/-- C2: if every attempt of `callAPI` fails, it makes exactly `maxRetries` = 3
attempts and returns a non-nil error whose message is `after 3 attempts: `
followed by the message of the failure of the last attempt, and which wraps
that failure. -/
theorem callAPI_all_attempts_fail (net : Nat → Outcome) (input : GoString)
    (hfail : ∀ a, a < maxRetries → (attemptAt net input a).err ≠ none) :
    maxRetries = 3 ∧ attempts (callAPI net input).trace = maxRetries ∧
      ∃ last err, (attemptAt net input (maxRetries - 1)).err = some last ∧
        (callAPI net input).err = some err ∧
        err.Error = "after 3 attempts: " ++ last.Error ∧ err.Unwrap = some last := by
  have hrun := attemptLoop_exhausted net input maxRetries 0 (fun b _ hb => hfail b (by omega))
  rw [← callAPI_unfold] at hrun
  obtain ⟨last, hlast⟩ := exists_of_ne_none (hfail 2 (by decide))
  refine ⟨rfl, ?_, last, errorfW "after 3 attempts: " last, hlast, ?_, rfl, rfl⟩
  · rw [hrun, attempts_traceOf]; simp
  · rw [hrun]
    have h3 : lastErrAt net input (0 + maxRetries) = some last := hlast
    simp only [h3, exhausted]
    rfl

theorem callAPI_all_attempts_fail_witness :
    (∀ a, a < maxRetries → (attemptAt (mixedNet 2) (goString "c") a).err ≠ none) ∧
    (maxRetries = 3 ∧ attempts (callAPI (mixedNet 2) (goString "c")).trace = maxRetries ∧
      ∃ last err, (attemptAt (mixedNet 2) (goString "c") (maxRetries - 1)).err = some last ∧
        (callAPI (mixedNet 2) (goString "c")).err = some err ∧
        err.Error = "after 3 attempts: " ++ last.Error ∧ err.Unwrap = some last) :=
  ⟨by decide, callAPI_all_attempts_fail (mixedNet 2) (goString "c") (by decide)⟩

/-- C3, at the failing input: attempt 1 receives status 200 and a body that
sets `result` and `error` and then fails to decode, attempt 2 receives status
200 and the body `{"success":true}`. The first clean success is attempt 2,
`callAPI` makes exactly 2 attempts and returns a nil error, but the payload
it returns holds `stale` and `old` from the body of attempt 1, whereas the
payload decoded from the body of attempt 2 is the zero value with `success`
set. -/
theorem callAPI_returns_stale_fields :
    (attemptAt staleNet (goString "acme") 0).err ≠ none ∧
    (attemptAt staleNet (goString "acme") 1).err = none ∧
    attempts (callAPI staleNet (goString "acme")).trace = 2 ∧
    (callAPI staleNet (goString "acme")).err = none ∧
    (callAPI staleNet (goString "acme")).response = ⟨"stale", true, "old"⟩ ∧
    (decodeFields none (some true) none none ResponsePayload.zero).1 = ⟨"", true, ""⟩ ∧
    (callAPI staleNet (goString "acme")).response
      ≠ (decodeFields none (some true) none none ResponsePayload.zero).1 := by
  decide

/-- C6, as stated, fails: a response with status 201, inside 200..299, and a
body that decodes is a protocol failure of the attempt, and `callAPI` ends in
the error of exhausted retries. -/
theorem status_created_is_failure :
    (200 ≤ (201 : Int) ∧ (201 : Int) ≤ 299) ∧
    (decodesTo ⟨"Acme Corp", true, ""⟩ ResponsePayload.zero).2 = none ∧
    (attemptBody (createdNet 0) ⟨[]⟩ ResponsePayload.zero).err
      = some (.leaf "unexpected status code: 201") ∧
    (callAPI createdNet (goString "acme")).err
      = some (.wrap "after 3 attempts: unexpected status code: 201"
          (.leaf "unexpected status code: 201")) := by
  decide

/-- C6, amended: a received response is a protocol failure of the attempt
(error `unexpected status code: <status>`, `response` untouched, body ignored)
if and only if its status is not 200; a response with status 200 and a body
that decodes is a success. -/
theorem attemptBody_status (status : Int)
    (decode : ResponsePayload → ResponsePayload × Option GoError) (j : JsonObject)
    (r : ResponsePayload) :
    (((attemptBody (.response status decode) j r).err
          = some (.leaf ("unexpected status code: " ++ toString status)) ∧
        (attemptBody (.response status decode) j r).response = r) ↔ status ≠ 200) ∧
    (status = 200 → (decode r).2 = none →
      (attemptBody (.response status decode) j r).err = none ∧
        (attemptBody (.response status decode) j r).response = (decode r).1) := by
  constructor
  · constructor
    · intro h hs
      subst hs
      unfold attemptBody at h
      simp only [] at h
      rcases hd : decode r with ⟨r1, _ | e⟩ <;> simp [hd, errorfW] at h
    · intro hs
      simp [attemptBody, hs]
  · intro hs hd
    subst hs
    unfold attemptBody
    rcases hd2 : decode r with ⟨r1, _ | e⟩
    · simp [hd2]
    · simp [hd2] at hd

theorem attemptBody_status_witness :
    (((attemptBody (.response 404 (decodesTo ⟨"x", true, ""⟩)) ⟨[]⟩ ResponsePayload.zero).err
          = some (.leaf ("unexpected status code: " ++ toString (404 : Int))) ∧
        (attemptBody (.response 404 (decodesTo ⟨"x", true, ""⟩)) ⟨[]⟩ ResponsePayload.zero).response
          = ResponsePayload.zero) ↔ (404 : Int) ≠ 200) ∧
    ((200 : Int) = 200 ∧ (decodesTo ⟨"x", true, ""⟩ ResponsePayload.zero).2 = none ∧
      (attemptBody (.response 200 (decodesTo ⟨"x", true, ""⟩)) ⟨[]⟩ ResponsePayload.zero).err
        = none ∧
      (attemptBody (.response 200 (decodesTo ⟨"x", true, ""⟩)) ⟨[]⟩ ResponsePayload.zero).response
        = (decodesTo ⟨"x", true, ""⟩ ResponsePayload.zero).1) :=
  ⟨(attemptBody_status 404 (decodesTo ⟨"x", true, ""⟩) ⟨[]⟩ ResponsePayload.zero).1,
    rfl, rfl,
    (attemptBody_status 200 (decodesTo ⟨"x", true, ""⟩) ⟨[]⟩ ResponsePayload.zero).2 rfl rfl⟩

/-- C8, as stated, fails: with attempts counted from 1, the sleep before the
second attempt is 1 s, not 2 s, and the sleep before the third is 2 s, not
3 s. -/
theorem backoff_not_attempt_number :
    eventBefore none (callAPI (mixedNet 2) (goString "c")).trace 2 = some (.sleep 1000000000) ∧
    eventBefore none (callAPI (mixedNet 2) (goString "c")).trace 2
      ≠ some (.sleep (2 * retryDelay)) ∧
    eventBefore none (callAPI (mixedNet 2) (goString "c")).trace 3 = some (.sleep 2000000000) ∧
    eventBefore none (callAPI (mixedNet 2) (goString "c")).trace 3
      ≠ some (.sleep (3 * retryDelay)) := by
  decide

/-- C8, amended: counting the first attempt as attempt 1, the event
immediately before every attempt `k >= 2` that `callAPI` makes is a sleep of
`(k - 1) * retryDelay` (1 s before the second attempt, 2 s before the third,
`retryDelay` being 1 s), nothing precedes attempt 1, and no more than
`maxRetries` attempts are made. -/
theorem backoff_before_attempt (net : Nat → Outcome) (input : GoString) (k : Nat)
    (h2 : 2 ≤ k) (hk : k ≤ attempts (callAPI net input).trace) :
    eventBefore none (callAPI net input).trace k = some (.sleep ((k - 1) * retryDelay)) ∧
      eventBefore none (callAPI net input).trace 1 = none ∧
      attempts (callAPI net input).trace ≤ maxRetries ∧ retryDelay = 1000000000 := by
  obtain ⟨m, hm1, hm3, htr⟩ := callAPI_trace net input
  rw [htr, attempts_traceOf] at hk
  rw [htr, attempts_traceOf]
  refine ⟨?_, ?_, hm3, rfl⟩
  · rw [eventBefore_traceOf net input m k (by omega) hk]
    simp; omega
  · rw [eventBefore_traceOf net input m 1 (by omega) hm1]
    simp

theorem backoff_before_attempt_witness :
    (2 ≤ 3 ∧ 3 ≤ attempts (callAPI (mixedNet 0) (goString "a")).trace) ∧
    eventBefore none (callAPI (mixedNet 0) (goString "a")).trace 3
      = some (.sleep ((3 - 1) * retryDelay)) ∧
      eventBefore none (callAPI (mixedNet 0) (goString "a")).trace 1 = none ∧
      attempts (callAPI (mixedNet 0) (goString "a")).trace ≤ maxRetries ∧ retryDelay = 1000000000 :=
  ⟨by decide, backoff_before_attempt (mixedNet 0) (goString "a") 3 (by decide) (by decide)⟩

/-- C10: for every input string `text`, valid UTF-8 or not, the payload
built by `callAPI` has query = `text`, unmodified, category = `company`,
numResults = 1 and contents.text = true. Marshalling it never fails, so that
the retry loop is always entered, and gives the document with the members
`query`, `category` = `company`, `numResults` = 1 and `contents` = `text`:
true, in which the query is `text` itself when `text` is valid UTF-8 (its
invalid bytes are written as U+FFFD otherwise). Whatever the network does,
every request of every attempt carries that one document, which depends on
`text` alone. -/
theorem payload_fixed (text : GoString) :
    payload text = ⟨text, "company", 1, ⟨true⟩⟩ ∧
    (∀ s : String, coerceUTF8 (goString s) = s) ∧
    ∃ jsonData : JsonObject,
      jsonData = ⟨[("query", .scalar (.str (coerceUTF8 text))),
        ("category", .scalar (.str "company")),
        ("numResults", .scalar (.num 1)),
        ("contents", .object [("text", .bool true)])]⟩ ∧
      jsonMarshal (payload text) = .ok jsonData ∧
      ∀ net : Nat → Outcome, 1 ≤ attempts (callAPI net text).trace ∧
        ∀ e ∈ (callAPI net text).trace,
          (e.isAttempt = true → e.body = some jsonData) ∧
          ∀ body, e.body = some body → body = jsonData := by
  refine ⟨rfl, coerceUTF8_goString, jsonEncode (payload text), rfl, rfl, fun net => ?_⟩
  obtain ⟨m, hm1, _, htr⟩ := callAPI_trace net text
  rw [htr, attempts_traceOf]
  refine ⟨hm1, fun e he => ⟨fun hatt => ?_, body_traceOf net text m e he⟩⟩
  cases e with
  | sleep d => simp [Event.isAttempt] at hatt
  | doRequest req => simp [Event.isAttempt] at hatt
  | newRequest method url body =>
    exact congrArg some (body_traceOf net text m _ he body rfl)

theorem payload_fixed_witness :
    (payload brokenText).Query = brokenText ∧
    coerceUTF8 (goString "acme") = "acme" ∧
    jsonMarshal (payload brokenText)
      = .ok ⟨[("query",
          .scalar (.str (String.mk [Char.ofNat 97, Char.ofNat 65533, Char.ofNat 98]))),
        ("category", .scalar (.str "company")),
        ("numResults", .scalar (.num 1)),
        ("contents", .object [("text", .bool true)])]⟩ ∧
    jsonMarshal (payload (goString "acme"))
      = .ok ⟨[("query", .scalar (.str "acme")),
        ("category", .scalar (.str "company")),
        ("numResults", .scalar (.num 1)),
        ("contents", .object [("text", .bool true)])]⟩ ∧
    attempts (callAPI (mixedNet 2) brokenText).trace = 3 ∧
    ∀ e ∈ (callAPI (mixedNet 2) brokenText).trace, ∀ body, e.body = some body →
      body = ⟨[("query",
          .scalar (.str (String.mk [Char.ofNat 97, Char.ofNat 65533, Char.ofNat 98]))),
        ("category", .scalar (.str "company")),
        ("numResults", .scalar (.num 1)),
        ("contents", .object [("text", .bool true)])]⟩ := by
  obtain ⟨hp, hco, jsonData, hdoc, hj, h⟩ := payload_fixed brokenText
  have hdata : jsonData
      = ⟨[("query",
          .scalar (.str (String.mk [Char.ofNat 97, Char.ofNat 65533, Char.ofNat 98]))),
        ("category", .scalar (.str "company")),
        ("numResults", .scalar (.num 1)),
        ("contents", .object [("text", .bool true)])]⟩ := by
    rw [hdoc]
    decide
  subst hdata
  exact ⟨congrArg RequestPayload.Query hp, hco "acme", hj, congrArg Except.ok (by decide),
    by decide, fun e he => ((h (mixedNet 2)).2 e he).2⟩

/-! ## The invariant is kept -/

theorem countP_set_phase (f : Phase → Bool) (l : List Phase) (i : Nat) (old new : Phase)
    (h : l[i]? = some old) :
    (l.set i new).countP f + (if f old then 1 else 0)
      = l.countP f + (if f new then 1 else 0) := by
  obtain ⟨hi, hget⟩ := List.getElem?_eq_some.mp h
  rw [List.countP_set f l i new hi, hget]
  by_cases hp : f old = true
  · have hpos : 0 < l.countP f :=
      List.countP_pos_iff.mpr ⟨old, List.mem_iff_getElem?.mpr ⟨i, h⟩, hp⟩
    simp [hp]
    omega
  · simp [hp]

theorem sum_map_set_phase (f : Phase → Nat) :
    ∀ (l : List Phase) (i : Nat) (old new : Phase), l[i]? = some old →
      ((l.set i new).map f).sum + f old = (l.map f).sum + f new := by
  intro l
  induction l with
  | nil => intro i old new h; simp at h
  | cons x xs ih =>
    intro i old new h
    cases i with
    | zero =>
      simp at h
      subst h
      simp only [List.set, List.map, List.sum_cons]
      omega
    | succ i =>
      simp at h
      have := ih i old new h
      simp only [List.set, List.map, List.sum_cons]
      omega

theorem getElem?_lt_of_some {α : Type} {l : List α} {i : Nat} {x : α} (h : l[i]? = some x) :
    i < l.length :=
  (List.getElem?_eq_some.mp h).1

theorem inv_init (inputs : List GoString) (net : Nat → Nat → Outcome) :
    Invariant inputs net (init inputs) where
  workers_len := by simp [init]
  results_len := by simp [init]
  next_le := by simp [init]
  next_lt := by simp [init]
  next_eq := by simp [init]
  phase := by
    intro i p h
    simp [init, List.getElem?_replicate] at h
    obtain ⟨_, rfl⟩ := h
    simp [PhaseOk, init]
    omega
  sem_eq := by simp [init, inFlight, List.countP_replicate, Phase.holdsSlot]
  sem_le := by simp [init]
  wg_eq := by simp [init, List.countP_replicate, Phase.counted]
  log_eq := by
    intro i p h
    simp [init, List.getElem?_replicate] at h
    obtain ⟨_, rfl⟩ := h
    simp [init, itemLog, Phase.called]
  ret := by simp [init]

/-- The phase of the item at the loop index when the dispatcher is not before
its `go` statement. -/
theorem phase_at_next {inputs : List GoString} {net : Nat → Nat → Outcome} {s : State}
    (hinv : Invariant inputs net s) (hpc : s.pc ≠ Pc.spawn) {p : Phase}
    (h : s.workers[s.next]? = some p) : p = Phase.idle := by
  have hp := hinv.phase s.next p h
  cases p <;> simp [PhaseOk] at hp <;> first | rfl | omega | exact absurd hp hpc

theorem phase_at_spawn {inputs : List GoString} {net : Nat → Nat → Outcome} {s : State}
    (hinv : Invariant inputs net s) (hpc : s.pc = Pc.spawn) {p : Phase}
    (h : s.workers[s.next]? = some p) : p = Phase.acquired := by
  have hp := hinv.phase s.next p h
  cases p <;> simp [PhaseOk, hpc] at hp
  rfl

theorem itemLog_append (xs ys : List (Nat × Event)) (i : Nat) :
    itemLog (xs ++ ys) i = itemLog xs i ++ itemLog ys i := by
  simp [itemLog, List.filter_append]

theorem itemLog_tagged (trace : List Event) (i j : Nat) :
    itemLog (trace.map (fun e => (i, e))) j = if i = j then trace else [] := by
  induction trace with
  | nil => simp [itemLog]
  | cons e es ih =>
    by_cases h : i = j
    · subst h
      simp [itemLog, List.filter_cons] at ih ⊢
      exact ih
    · simp [itemLog, h, List.filter_cons] at ih ⊢

theorem set_cases {l : List Phase} {i0 i : Nat} {q p : Phase}
    (h : (l.set i0 q)[i]? = some p) :
    (i = i0 ∧ p = q ∧ i0 < l.length) ∨ (i ≠ i0 ∧ l[i]? = some p) := by
  rw [List.getElem?_set] at h
  by_cases hi : i0 = i
  · subst hi
    by_cases hl : i0 < l.length
    · simp [hl] at h
      exact Or.inl ⟨rfl, h.symm, hl⟩
    · simp [hl] at h
  · rw [if_neg hi] at h
    exact Or.inr ⟨fun e => hi e.symm, h⟩

/-- A step that leaves the loop index, the results and whether the dispatcher
is before its `go` statement as they are keeps what the phases say. -/
theorem PhaseOk.transfer {inputs : List GoString} {net : Nat → Nat → Outcome} {s t : State}
    {i : Nat} {p : Phase} (h : PhaseOk inputs net s i p) (hnext : t.next = s.next)
    (hpc : t.pc = Pc.spawn ↔ s.pc = Pc.spawn) (hres : t.results[i]? = s.results[i]?) :
    PhaseOk inputs net t i p := by
  cases p <;> simp only [PhaseOk, hnext, hpc, hres, ne_eq] at h ⊢ <;> exact h

/-- A step of the dispatcher keeps the invariant and takes one step off the
steps left. -/
theorem step_main_inv {inputs : List GoString} {net : Nat → Nat → Outcome} {s t : State}
    (hinv : Invariant inputs net s) (h : step inputs net s .main = some t) :
    Invariant inputs net t ∧ stepsLeft inputs.length t + 1 = stepsLeft inputs.length s := by
  unfold step at h
  simp only [] at h
  cases hpc : s.pc with
  | loopHead =>
    rw [hpc] at h
    simp only [] at h
    split at h
    · rename_i hlt
      obtain rfl := Option.some.inj h
      refine ⟨⟨hinv.workers_len, hinv.results_len, hinv.next_le, fun _ => hlt, by simp, ?_,
        hinv.sem_eq, hinv.sem_le, ?_, hinv.log_eq, by simp⟩, ?_⟩
      · intro i p hp
        exact (hinv.phase i p hp).transfer rfl (by simp [hpc]) rfl
      · have := hinv.wg_eq
        simp only [hpc] at this
        simp [this]
      · simp only [stepsLeft, mainStepsLeft, hpc]
        omega
    · rename_i hlt
      obtain rfl := Option.some.inj h
      have hn := hinv.next_le
      refine ⟨⟨hinv.workers_len, hinv.results_len, hinv.next_le, by simp, fun _ => by
        show s.next = inputs.length; omega, ?_, hinv.sem_eq, hinv.sem_le, ?_, hinv.log_eq,
        by simp⟩, ?_⟩
      · intro i p hp
        exact (hinv.phase i p hp).transfer rfl (by simp [hpc]) rfl
      · have := hinv.wg_eq
        simp only [hpc] at this
        simp [this]
      · have : inputs.length - s.next = 0 := by omega
        simp only [stepsLeft, mainStepsLeft, hpc, this]
        omega
  | acquire =>
    rw [hpc] at h
    simp only [] at h
    split at h
    · rename_i hlt
      obtain rfl := Option.some.inj h
      have hnext := hinv.next_lt (Or.inl hpc)
      have hw : s.next < s.workers.length := by rw [hinv.workers_len]; exact hnext
      have hold : s.workers[s.next]? = some Phase.idle := by
        rw [List.getElem?_eq_getElem hw]
        exact congrArg some (phase_at_next hinv (by simp [hpc]) (List.getElem?_eq_getElem hw))
      refine ⟨⟨by simp [hinv.workers_len], hinv.results_len, hinv.next_le, fun _ => hnext,
        by simp, ?_, ?_, ?_, ?_, ?_, by simp⟩, ?_⟩
      · intro i p hp
        rcases set_cases hp with ⟨rfl, rfl, _⟩ | ⟨hne, hp1⟩
        · exact ⟨rfl, rfl⟩
        · have hph := hinv.phase i p hp1
          cases p with
          | idle =>
            rcases hph with hlt1 | ⟨heq, _⟩
            · exact Or.inl hlt1
            · exact absurd heq.symm hne
          | acquired => exact absurd hph.1 (by simp [hpc])
          | started input => exact hph
          | computed result => exact hph
          | stored => exact hph
          | released => exact hph
          | finished => exact hph
      · have h1 := countP_set_phase Phase.holdsSlot s.workers s.next _ Phase.acquired hold
        have h2 := hinv.sem_eq
        simp only [inFlight, Phase.holdsSlot] at h1 h2 ⊢
        simp at h1
        omega
      · show s.sem + 1 ≤ batchSize
        omega
      · have h1 := countP_set_phase Phase.counted s.workers s.next _ Phase.acquired hold
        have h2 := hinv.wg_eq
        simp only [hpc, Phase.counted] at h1 h2 ⊢
        simp at h1 h2 ⊢
        omega
      · intro i p hp
        rcases set_cases hp with ⟨rfl, rfl, _⟩ | ⟨hne, hp1⟩
        · have := hinv.log_eq s.next _ hold
          simpa [Phase.called] using this
        · exact hinv.log_eq i p hp1
      · have h1 := sum_map_set_phase Phase.stepsLeft s.workers s.next _ Phase.acquired hold
        simp only [stepsLeft, mainStepsLeft, hpc, Phase.stepsLeft] at h1 ⊢
        omega
    · simp at h
  | spawn =>
    rw [hpc] at h
    simp only [] at h
    split at h
    · rename_i input hinput
      obtain rfl := Option.some.inj h
      have hnext := hinv.next_lt (Or.inr hpc)
      have hw : s.next < s.workers.length := by rw [hinv.workers_len]; exact hnext
      have hold : s.workers[s.next]? = some Phase.acquired := by
        rw [List.getElem?_eq_getElem hw]
        exact congrArg some (phase_at_spawn hinv hpc (List.getElem?_eq_getElem hw))
      refine ⟨⟨by simp [hinv.workers_len], hinv.results_len, hnext, by simp,
        by simp, ?_, ?_, hinv.sem_le, ?_, ?_, by simp⟩, ?_⟩
      · intro i p hp
        rcases set_cases hp with ⟨rfl, rfl, _⟩ | ⟨hne, hp1⟩
        · exact ⟨Nat.lt_succ_self _, hinput⟩
        · have hph := hinv.phase i p hp1
          cases p with
          | idle =>
            rcases hph with hlt1 | ⟨heq, _⟩
            · by_cases h2 : s.next + 1 = i
              · exact Or.inr ⟨h2, by simp⟩
              · exact Or.inl (by show s.next + 1 < i; omega)
            · exact absurd heq.symm hne
          | acquired => exact absurd hph.2 hne
          | started input => exact ⟨Nat.lt_succ_of_lt hph.1, hph.2⟩
          | computed result => exact ⟨Nat.lt_succ_of_lt hph.1, hph.2⟩
          | stored => exact ⟨Nat.lt_succ_of_lt hph.1, hph.2⟩
          | released => exact ⟨Nat.lt_succ_of_lt hph.1, hph.2⟩
          | finished => exact ⟨Nat.lt_succ_of_lt hph.1, hph.2⟩
      · have h1 := countP_set_phase Phase.holdsSlot s.workers s.next _ (Phase.started input) hold
        have h2 := hinv.sem_eq
        simp only [inFlight, Phase.holdsSlot] at h1 h2 ⊢
        simp at h1
        omega
      · have h1 := countP_set_phase Phase.counted s.workers s.next _ (Phase.started input) hold
        have h2 := hinv.wg_eq
        simp only [hpc, Phase.counted] at h1 h2 ⊢
        simp at h1 h2 ⊢
        omega
      · intro i p hp
        rcases set_cases hp with ⟨rfl, rfl, _⟩ | ⟨hne, hp1⟩
        · have := hinv.log_eq s.next _ hold
          simpa [Phase.called] using this
        · exact hinv.log_eq i p hp1
      · have h1 := sum_map_set_phase Phase.stepsLeft s.workers s.next _ (Phase.started input) hold
        simp only [stepsLeft, mainStepsLeft, hpc, Phase.stepsLeft] at h1 ⊢
        omega
    · simp at h
  | wait =>
    rw [hpc] at h
    simp only [] at h
    split at h
    · rename_i hwg
      obtain rfl := Option.some.inj h
      have hcount : s.workers.countP Phase.counted = 0 := by
        have := hinv.wg_eq
        omega
      have hnext := hinv.next_eq (Or.inl hpc)
      refine ⟨⟨hinv.workers_len, hinv.results_len, hinv.next_le, by simp, fun _ => hnext,
        ?_, hinv.sem_eq, hinv.sem_le, ?_, hinv.log_eq, ?_⟩, ?_⟩
      · intro i p hp
        exact (hinv.phase i p hp).transfer rfl (by simp [hpc]) rfl
      · have := hinv.wg_eq
        simp only [hpc] at this
        simp [this]
      · intro _ i p hp
        have hno := List.countP_eq_zero.mp hcount p (List.mem_iff_getElem?.mpr ⟨i, hp⟩)
        have hi : i < inputs.length := by
          rw [← hinv.workers_len]; exact getElem?_lt_of_some hp
        have hph := hinv.phase i p hp
        cases p with
        | idle =>
          rcases hph with hlt1 | ⟨heq, _⟩ <;> omega
        | finished => rfl
        | acquired => simp [Phase.counted] at hno
        | started input => simp [Phase.counted] at hno
        | computed result => simp [Phase.counted] at hno
        | stored => simp [Phase.counted] at hno
        | released => simp [Phase.counted] at hno
      · simp only [stepsLeft, mainStepsLeft, hpc]
        omega
    · simp at h
  | returned =>
    rw [hpc] at h
    simp at h

/-- A step of a goroutine keeps the invariant and takes one step off the
steps left. -/
theorem step_worker_inv {inputs : List GoString} {net : Nat → Nat → Outcome} {s t : State}
    {i : Nat} (hinv : Invariant inputs net s) (h : step inputs net s (.worker i) = some t) :
    Invariant inputs net t ∧ stepsLeft inputs.length t + 1 = stepsLeft inputs.length s := by
  unfold step at h
  simp only [] at h
  have hnotret : ∀ p, s.workers[i]? = some p → p ≠ Phase.finished → s.pc ≠ Pc.returned :=
    fun p hp hne hret => hne (hinv.ret hret i p hp)
  split at h
  · rename_i input hold
    obtain rfl := Option.some.inj h
    have hph := hinv.phase i _ hold
    refine ⟨⟨by simp [hinv.workers_len], hinv.results_len, hinv.next_le, hinv.next_lt,
      hinv.next_eq, ?_, ?_, hinv.sem_le, ?_, ?_, ?_⟩, ?_⟩
    · intro j p hp
      rcases set_cases hp with ⟨rfl, rfl, _⟩ | ⟨hne, hp1⟩
      · exact ⟨hph.1, input, hph.2, rfl⟩
      · exact (hinv.phase j p hp1).transfer rfl Iff.rfl rfl
    · have h1 := countP_set_phase Phase.holdsSlot s.workers i _
        (Phase.computed (workerResult net i input)) hold
      have h2 := hinv.sem_eq
      simp only [inFlight, Phase.holdsSlot] at h1 h2 ⊢
      simp at h1
      omega
    · have h1 := countP_set_phase Phase.counted s.workers i _
        (Phase.computed (workerResult net i input)) hold
      have h2 := hinv.wg_eq
      simp only [Phase.counted] at h1 h2 ⊢
      simp at h1
      omega
    · intro j p hp
      show itemLog (s.log ++ _) j = _
      rw [itemLog_append, itemLog_tagged]
      rcases set_cases hp with ⟨rfl, rfl, _⟩ | ⟨hne, hp1⟩
      · have := hinv.log_eq j _ hold
        simp [Phase.called] at this
        simp [this, Phase.called, itemTrace, hph.2]
      · have := hinv.log_eq j p hp1
        have hij : ¬ i = j := fun e => hne e.symm
        simp [this, hij]
    · intro hret
      exact absurd hret (hnotret _ hold (by simp))
    · have h1 := sum_map_set_phase Phase.stepsLeft s.workers i _
        (Phase.computed (workerResult net i input)) hold
      simp only [stepsLeft, mainStepsLeft, Phase.stepsLeft] at h1 ⊢
      omega
  · rename_i result hold
    split at h
    · rename_i hlen
      obtain rfl := Option.some.inj h
      have hph := hinv.phase i _ hold
      obtain ⟨hlt, input, hinput, hres⟩ := hph
      refine ⟨⟨by simp [hinv.workers_len], by simp [hinv.results_len], hinv.next_le,
        hinv.next_lt, hinv.next_eq, ?_, ?_, hinv.sem_le, ?_, ?_, ?_⟩, ?_⟩
      · intro j p hp
        rcases set_cases hp with ⟨rfl, rfl, _⟩ | ⟨hne, hp1⟩
        · refine ⟨hlt, input, hinput, ?_⟩
          show (s.results.set j result)[j]? = _
          rw [List.getElem?_set_self hlen, hres]
        · refine (hinv.phase j p hp1).transfer rfl Iff.rfl ?_
          show (s.results.set i result)[j]? = _
          rw [List.getElem?_set_ne (fun e => hne e.symm)]
      · have h1 := countP_set_phase Phase.holdsSlot s.workers i _ Phase.stored hold
        have h2 := hinv.sem_eq
        simp only [inFlight, Phase.holdsSlot] at h1 h2 ⊢
        simp at h1
        omega
      · have h1 := countP_set_phase Phase.counted s.workers i _ Phase.stored hold
        have h2 := hinv.wg_eq
        simp only [Phase.counted] at h1 h2 ⊢
        simp at h1
        omega
      · intro j p hp
        rcases set_cases hp with ⟨rfl, rfl, _⟩ | ⟨hne, hp1⟩
        · have := hinv.log_eq j _ hold
          simpa [Phase.called] using this
        · exact hinv.log_eq j p hp1
      · intro hret
        exact absurd hret (hnotret _ hold (by simp))
      · have h1 := sum_map_set_phase Phase.stepsLeft s.workers i _ Phase.stored hold
        simp only [stepsLeft, mainStepsLeft, Phase.stepsLeft] at h1 ⊢
        omega
    · simp at h
  · rename_i hold
    split at h
    · rename_i hsem
      obtain rfl := Option.some.inj h
      have hph := hinv.phase i _ hold
      refine ⟨⟨by simp [hinv.workers_len], hinv.results_len, hinv.next_le,
        hinv.next_lt, hinv.next_eq, ?_, ?_, ?_, ?_, ?_, ?_⟩, ?_⟩
      · intro j p hp
        rcases set_cases hp with ⟨rfl, rfl, _⟩ | ⟨hne, hp1⟩
        · exact hph
        · exact (hinv.phase j p hp1).transfer rfl Iff.rfl rfl
      · have h1 := countP_set_phase Phase.holdsSlot s.workers i _ Phase.released hold
        have h2 := hinv.sem_eq
        simp only [inFlight, Phase.holdsSlot] at h1 h2 ⊢
        simp at h1
        omega
      · have := hinv.sem_le
        show s.sem - 1 ≤ batchSize
        omega
      · have h1 := countP_set_phase Phase.counted s.workers i _ Phase.released hold
        have h2 := hinv.wg_eq
        simp only [Phase.counted] at h1 h2 ⊢
        simp at h1
        omega
      · intro j p hp
        rcases set_cases hp with ⟨rfl, rfl, _⟩ | ⟨hne, hp1⟩
        · have := hinv.log_eq j _ hold
          simpa [Phase.called] using this
        · exact hinv.log_eq j p hp1
      · intro hret
        exact absurd hret (hnotret _ hold (by simp))
      · have h1 := sum_map_set_phase Phase.stepsLeft s.workers i _ Phase.released hold
        simp only [stepsLeft, mainStepsLeft, Phase.stepsLeft] at h1 ⊢
        omega
    · simp at h
  · rename_i hold
    split at h
    · rename_i hwg
      obtain rfl := Option.some.inj h
      have hph := hinv.phase i _ hold
      refine ⟨⟨by simp [hinv.workers_len], hinv.results_len, hinv.next_le,
        hinv.next_lt, hinv.next_eq, ?_, ?_, hinv.sem_le, ?_, ?_, ?_⟩, ?_⟩
      · intro j p hp
        rcases set_cases hp with ⟨rfl, rfl, _⟩ | ⟨hne, hp1⟩
        · exact hph
        · exact (hinv.phase j p hp1).transfer rfl Iff.rfl rfl
      · have h1 := countP_set_phase Phase.holdsSlot s.workers i _ Phase.finished hold
        have h2 := hinv.sem_eq
        simp only [inFlight, Phase.holdsSlot] at h1 h2 ⊢
        simp at h1
        omega
      · have h1 := countP_set_phase Phase.counted s.workers i _ Phase.finished hold
        have h2 := hinv.wg_eq
        simp only [Phase.counted] at h1 h2 ⊢
        simp at h1
        omega
      · intro j p hp
        rcases set_cases hp with ⟨rfl, rfl, _⟩ | ⟨hne, hp1⟩
        · have := hinv.log_eq j _ hold
          simpa [Phase.called] using this
        · exact hinv.log_eq j p hp1
      · intro hret
        exact absurd hret (hnotret _ hold (by simp))
      · have h1 := sum_map_set_phase Phase.stepsLeft s.workers i _ Phase.finished hold
        simp only [stepsLeft, mainStepsLeft, Phase.stepsLeft] at h1 ⊢
        omega
    · simp at h
  · simp at h

theorem step_inv {inputs : List GoString} {net : Nat → Nat → Outcome} {s t : State} {a : Action}
    (hinv : Invariant inputs net s) (h : step inputs net s a = some t) :
    Invariant inputs net t ∧ stepsLeft inputs.length t + 1 = stepsLeft inputs.length s := by
  cases a with
  | main => exact step_main_inv hinv h
  | worker i => exact step_worker_inv hinv h

theorem exec_inv {inputs : List GoString} {net : Nat → Nat → Outcome} (sched : List Action) :
    ∀ {s t : State}, Invariant inputs net s → exec inputs net sched s = some t →
      Invariant inputs net t ∧
        stepsLeft inputs.length t + sched.length = stepsLeft inputs.length s := by
  induction sched with
  | nil =>
    intro s t hinv h
    simp only [exec] at h
    obtain rfl := Option.some.inj h
    exact ⟨hinv, rfl⟩
  | cons a rest ih =>
    intro s t hinv h
    simp only [exec] at h
    split at h
    · rename_i s1 hs1
      obtain ⟨hinv1, hm1⟩ := step_inv hinv hs1
      obtain ⟨hinv2, hm2⟩ := ih hinv1 h
      refine ⟨hinv2, ?_⟩
      simp only [List.length_cons]
      omega
    · simp at h

theorem stepsLeft_init (inputs : List GoString) :
    stepsLeft inputs.length (init inputs) = 7 * inputs.length + 2 := by
  simp [stepsLeft, mainStepsLeft, init, Phase.stepsLeft]
  omega

/-- Every state a run reaches satisfies the invariant, and the steps taken and
the steps left add up to `7 * n + 2`. -/
theorem run_inv {inputs : List GoString} {net : Nat → Nat → Outcome} {sched : List Action}
    {s : State} (h : run inputs net sched = some s) :
    Invariant inputs net s ∧
      stepsLeft inputs.length s + sched.length = 7 * inputs.length + 2 := by
  have := exec_inv sched (inv_init inputs net) h
  rw [stepsLeft_init] at this
  exact this

/-- No reachable state is stuck before `return results`. -/
theorem progress {inputs : List GoString} {net : Nat → Nat → Outcome} {s : State}
    (hinv : Invariant inputs net s) (hpc : s.pc ≠ Pc.returned) :
    ∃ a t, step inputs net s a = some t := by
  have hworker : ∀ (i : Nat) (p : Phase), s.workers[i]? = some p → p.counted = true →
      s.pc ≠ Pc.spawn →
      ∃ a t, step inputs net s a = some t := by
    intro i p hp hc hns
    have hmem : p ∈ s.workers := List.mem_iff_getElem?.mpr ⟨i, hp⟩
    cases p with
    | idle => simp [Phase.counted] at hc
    | finished => simp [Phase.counted] at hc
    | acquired => exact absurd (hinv.phase i _ hp).1 hns
    | started input => exact ⟨.worker i, _, by simp only [step, hp]; rfl⟩
    | computed result =>
      have hi : i < s.results.length := by
        rw [hinv.results_len, ← hinv.workers_len]; exact getElem?_lt_of_some hp
      exact ⟨.worker i, _, by simp only [step, hp, hi, if_true]; rfl⟩
    | stored =>
      have hpos : 0 < s.sem := by
        rw [hinv.sem_eq]
        exact List.countP_pos_iff.mpr ⟨_, hmem, rfl⟩
      exact ⟨.worker i, _, by simp only [step, hp, hpos, if_true]; rfl⟩
    | released =>
      have hpos : 0 < s.wg := by
        rw [hinv.wg_eq]
        exact Nat.lt_of_lt_of_le (List.countP_pos_iff.mpr ⟨_, hmem, rfl⟩) (Nat.le_add_right _ _)
      exact ⟨.worker i, _, by simp only [step, hp, hpos, if_true]; rfl⟩
  cases hpc1 : s.pc with
  | returned => exact absurd hpc1 hpc
  | loopHead =>
    by_cases hlt : s.next < inputs.length
    · exact ⟨.main, _, by simp only [step, hpc1, hlt, if_true]; rfl⟩
    · exact ⟨.main, _, by simp only [step, hpc1, hlt, if_false]; rfl⟩
  | acquire =>
    by_cases hlt : s.sem < batchSize
    · exact ⟨.main, _, by simp only [step, hpc1, hlt, if_true]; rfl⟩
    · have hpos : 0 < s.workers.countP Phase.holdsSlot := by
        have h1 := hinv.sem_eq
        have h2 : 0 < batchSize := by decide
        simp only [inFlight] at h1
        omega
      obtain ⟨p, hmem, hp⟩ := List.countP_pos_iff.mp hpos
      obtain ⟨i, hi⟩ := List.mem_iff_getElem?.mp hmem
      refine hworker i p hi ?_ (by simp [hpc1])
      cases p <;> simp [Phase.holdsSlot, Phase.counted] at hp ⊢
  | spawn =>
    have hlt := hinv.next_lt (Or.inr hpc1)
    exact ⟨.main, _, by simp only [step, hpc1, List.getElem?_eq_getElem hlt]; rfl⟩
  | wait =>
    by_cases hwg : s.wg = 0
    · exact ⟨.main, _, by simp only [step, hpc1, hwg, if_true]; rfl⟩
    · have hpos : 0 < s.workers.countP Phase.counted := by
        have h1 := hinv.wg_eq
        simp only [hpc1] at h1
        simp at h1
        omega
      obtain ⟨p, hmem, hp⟩ := List.countP_pos_iff.mp hpos
      obtain ⟨i, hi⟩ := List.mem_iff_getElem?.mp hmem
      exact hworker i p hi hp (by simp [hpc1])

theorem exec_append {inputs : List GoString} {net : Nat → Nat → Outcome} (xs ys : List Action) :
    ∀ {s t : State}, exec inputs net xs s = some t →
      exec inputs net (xs ++ ys) s = exec inputs net ys t := by
  induction xs with
  | nil =>
    intro s t h
    simp only [exec] at h
    obtain rfl := Option.some.inj h
    rfl
  | cons a rest ih =>
    intro s t h
    simp only [exec, List.cons_append] at h ⊢
    cases hs1 : step inputs net s a with
    | none => simp [hs1] at h
    | some s1 =>
      simp only [hs1] at h ⊢
      exact ih h

/-- From every reachable state some schedule leads to `return results`. -/
theorem completes {inputs : List GoString} {net : Nat → Nat → Outcome} :
    ∀ (n : Nat) (s : State), Invariant inputs net s → stepsLeft inputs.length s = n →
      ∃ sched t, exec inputs net sched s = some t ∧ t.pc = Pc.returned := by
  intro n
  induction n with
  | zero =>
    intro s hinv hn
    by_cases hpc : s.pc = Pc.returned
    · exact ⟨[], s, rfl, hpc⟩
    · obtain ⟨a, t, ht⟩ := progress hinv hpc
      have := (step_inv hinv ht).2
      omega
  | succ n ih =>
    intro s hinv hn
    by_cases hpc : s.pc = Pc.returned
    · exact ⟨[], s, rfl, hpc⟩
    · obtain ⟨a, t, ht⟩ := progress hinv hpc
      obtain ⟨hinv1, hm⟩ := step_inv hinv ht
      obtain ⟨sched, u, hu, hret⟩ := ih t hinv1 (by omega)
      refine ⟨a :: sched, u, ?_, hret⟩
      simp only [exec, ht]
      exact hu

theorem getElem?_resultsFrom (net : Nat → Nat → Outcome) :
    ∀ (inputs : List GoString) (k j : Nat),
      (resultsFrom net k inputs)[j]? = inputs[j]?.map (workerResult net (k + j)) := by
  intro inputs
  induction inputs with
  | nil => intro k j; simp [resultsFrom]
  | cons input rest ih =>
    intro k j
    cases j with
    | zero => simp [resultsFrom]
    | succ j =>
      simp only [resultsFrom, List.getElem?_cons_succ, ih]
      have : k + 1 + j = k + (j + 1) := by omega
      rw [this]

/-- What `processConcurrently` returns, under every schedule that lets it
return. -/
theorem returned_results {inputs : List GoString} {net : Nat → Nat → Outcome} {s : State}
    (hinv : Invariant inputs net s) (hret : s.pc = Pc.returned) :
    s.results = resultsFrom net 0 inputs := by
  apply List.ext_getElem?
  intro j
  rw [getElem?_resultsFrom, Nat.zero_add]
  by_cases hj : j < inputs.length
  · have hw : j < s.workers.length := by rw [hinv.workers_len]; exact hj
    have hp := List.getElem?_eq_getElem hw
    have hfin := hinv.ret hret j _ hp
    rw [hfin] at hp
    obtain ⟨_, input, hinput, hres⟩ := hinv.phase j _ hp
    rw [hres, hinput]
    rfl
  · have h1 : s.results.length ≤ j := by rw [hinv.results_len]; omega
    rw [List.getElem?_eq_none h1, List.getElem?_eq_none (by omega)]
    rfl

theorem processConcurrently_eq {inputs : List GoString} {net : Nat → Nat → Outcome}
    {sched : List Action} {res : List ProcessResult}
    (h : processConcurrently inputs net sched = some res) :
    ∃ s, run inputs net sched = some s ∧ s.pc = Pc.returned ∧ s.results = res := by
  unfold processConcurrently at h
  split at h
  · rename_i s hs
    split at h
    · rename_i hpc
      exact ⟨s, hs, hpc, Option.some.inj h⟩
    · simp at h
  · simp at h

theorem processConcurrently_results {inputs : List GoString} {net : Nat → Nat → Outcome}
    {sched : List Action} {res : List ProcessResult}
    (h : processConcurrently inputs net sched = some res) :
    res = resultsFrom net 0 inputs := by
  obtain ⟨s, hs, hpc, rfl⟩ := processConcurrently_eq h
  exact returned_results (run_inv hs).1 hpc

theorem map_Input_resultsFrom (net : Nat → Nat → Outcome) :
    ∀ (inputs : List GoString) (k : Nat),
      (resultsFrom net k inputs).map ProcessResult.Input = inputs := by
  intro inputs
  induction inputs with
  | nil => intro k; rfl
  | cons input rest ih => intro k; simp [resultsFrom, workerResult, ih]

theorem length_resultsFrom (net : Nat → Nat → Outcome) :
    ∀ (inputs : List GoString) (k : Nat), (resultsFrom net k inputs).length = inputs.length := by
  intro inputs
  induction inputs with
  | nil => intro k; rfl
  | cons input rest ih => intro k; simp [resultsFrom, ih]

theorem attemptLoop_congr (n1 n2 : Nat → Outcome) (j : JsonObject) (left : Nat) :
    ∀ (a : Nat) (r : ResponsePayload) (e : Option GoError) (tr : List Event),
      (∀ b, a ≤ b → b < a + left → n1 b = n2 b) →
      attemptLoop n1 j left a r e tr = attemptLoop n2 j left a r e tr := by
  induction left with
  | zero => intro a r e tr _; rfl
  | succ left ih =>
    intro a r e tr h
    have ha := h a (Nat.le_refl a) (by omega)
    simp only [attemptLoop, ha]
    split
    · rfl
    · exact ih _ _ _ _ (fun b hb1 hb2 => h b (by omega) (by omega))

/-- The result of `callAPI` depends on the outcomes of its `maxRetries` loop
iterations only. -/
theorem callAPI_congr (n1 n2 : Nat → Outcome) (input : GoString)
    (h : ∀ a, a < maxRetries → n1 a = n2 a) : callAPI n1 input = callAPI n2 input := by
  simp only [callAPI, jsonMarshal]
  exact attemptLoop_congr n1 n2 _ maxRetries 0 _ _ _ (fun b _ hb => h b (by omega))

/-! ## Claims on `processConcurrently` -/

/-- C1: for every input list and every behaviour of the network,
`processConcurrently` returns, under every interleaving, a list of the length
of the input list whose entry `i` records input `i` (so the empty list gives
the empty list). It does return: no run is longer than `7 * n + 2` steps, no
reachable state before the return is stuck, and some schedule reaches the
return. -/
theorem processConcurrently_order (inputs : List GoString) (net : Nat → Nat → Outcome) :
    (∀ sched res, processConcurrently inputs net sched = some res →
      res.length = inputs.length ∧ res.map ProcessResult.Input = inputs ∧
        (∀ i : Nat, (res[i]?).map ProcessResult.Input = inputs[i]?) ∧
        (inputs = [] → res = [])) ∧
    (∀ sched s, run inputs net sched = some s →
      sched.length ≤ 7 * inputs.length + 2 ∧
        (s.pc ≠ Pc.returned → ∃ a t, step inputs net s a = some t)) ∧
    (∃ sched res, processConcurrently inputs net sched = some res) := by
  refine ⟨?_, ?_, ?_⟩
  · intro sched res h
    have hres := processConcurrently_results h
    subst hres
    refine ⟨length_resultsFrom net inputs 0, map_Input_resultsFrom net inputs 0, ?_, ?_⟩
    · intro i
      rw [← List.getElem?_map, map_Input_resultsFrom]
    · intro he
      subst he
      rfl
  · intro sched s h
    obtain ⟨hinv, hm⟩ := run_inv h
    exact ⟨by omega, fun hpc => progress hinv hpc⟩
  · obtain ⟨sched, t, ht, hret⟩ :=
      completes (stepsLeft inputs.length (init inputs)) (init inputs) (inv_init inputs net) rfl
    refine ⟨sched, t.results, ?_⟩
    have hrun : run inputs net sched = some t := ht
    simp [processConcurrently, hrun, hret]

theorem processConcurrently_order_witness :
    processConcurrently sampleInputs mixedNet interleavedSchedule
        = some (resultsFrom mixedNet 0 sampleInputs) ∧
      (resultsFrom mixedNet 0 sampleInputs).length = sampleInputs.length ∧
      (resultsFrom mixedNet 0 sampleInputs).map ProcessResult.Input = sampleInputs ∧
      processConcurrently [] mixedNet [.main, .main] = some [] :=
  ⟨by decide,
    ((processConcurrently_order sampleInputs mixedNet).1 interleavedSchedule _ (by decide)).1,
    ((processConcurrently_order sampleInputs mixedNet).1 interleavedSchedule _
      (by decide)).2.1,
    by decide⟩

/-- C4: in every state that a run of `processConcurrently` reaches, under any
interleaving of the dispatch loop and the goroutines and for any input list,
the number of workers let in by the semaphore and not yet released is the
number of elements in the channel and is at most `batchSize` = 100. -/
theorem inFlight_le_batchSize (inputs : List GoString) (net : Nat → Nat → Outcome)
    (sched : List Action) (s : State) (h : run inputs net sched = some s) :
    inFlight s ≤ batchSize ∧ inFlight s = s.sem ∧ batchSize = 100 := by
  obtain ⟨hinv, _⟩ := run_inv h
  refine ⟨?_, hinv.sem_eq.symm, rfl⟩
  rw [← hinv.sem_eq]
  exact hinv.sem_le

theorem inFlight_le_batchSize_witness :
    ∃ s, run sampleInputs mixedNet [.main, .main, .main, .main, .main, .main, .worker 0]
        = some s ∧ inFlight s = 2 ∧ inFlight s ≤ batchSize :=
  ⟨_, rfl, by decide,
    (inFlight_le_batchSize sampleInputs mixedNet
      [.main, .main, .main, .main, .main, .main, .worker 0] _ rfl).1⟩

/-- C5: entry `i` of the result of `processConcurrently` is the result of
the goroutine of item `i`, a function of `inputs[i]` and of the outcomes of
the network calls of item `i`. Two runs, under any two interleavings, whose
network outcomes agree on the attempts of item `i` and differ at will on the
other items return the same entry `i` and lists of the same length. -/
theorem item_isolation (inputs : List GoString) (net1 net2 : Nat → Nat → Outcome)
    (sched1 sched2 : List Action) (res1 res2 : List ProcessResult) (i : Nat)
    (hagree : ∀ a, a < maxRetries → net1 i a = net2 i a)
    (h1 : processConcurrently inputs net1 sched1 = some res1)
    (h2 : processConcurrently inputs net2 sched2 = some res2) :
    res1[i]? = res2[i]? ∧ res1.length = res2.length ∧ res1.length = inputs.length ∧
      res1[i]? = inputs[i]?.map (fun input =>
        ⟨input, (callAPI (net1 i) input).response, (callAPI (net1 i) input).err⟩) := by
  have e1 := processConcurrently_results h1
  have e2 := processConcurrently_results h2
  subst e1 e2
  refine ⟨?_, ?_, length_resultsFrom net1 inputs 0, ?_⟩
  · rw [getElem?_resultsFrom, getElem?_resultsFrom, Nat.zero_add]
    cases inputs[i]? with
    | none => rfl
    | some input =>
      simp only [Option.map, workerResult, callAPI_congr (net1 i) (net2 i) input hagree]
  · rw [length_resultsFrom, length_resultsFrom]
  · rw [getElem?_resultsFrom, Nat.zero_add]
    rfl

theorem item_isolation_witness :
    (∀ a, a < maxRetries → mixedNet 1 a = outageNet 1 a) ∧
    processConcurrently sampleInputs mixedNet interleavedSchedule
        = some (resultsFrom mixedNet 0 sampleInputs) ∧
    processConcurrently sampleInputs outageNet (sequentialSchedule 3)
        = some (resultsFrom outageNet 0 sampleInputs) ∧
    (resultsFrom mixedNet 0 sampleInputs)[0]? ≠ (resultsFrom outageNet 0 sampleInputs)[0]? ∧
    (resultsFrom mixedNet 0 sampleInputs)[1]? = (resultsFrom outageNet 0 sampleInputs)[1]? :=
  ⟨fun _ _ => rfl, by decide, by decide, by decide,
    (item_isolation sampleInputs mixedNet outageNet interleavedSchedule (sequentialSchedule 3)
      _ _ 1 (fun _ _ => rfl) (by decide) (by decide)).1⟩

/-! ## Claims on `writeResults` -/

theorem writeRows_ok (fs : FileSys) (hwrite : ∀ n, fs.write n = none) :
    ∀ (results : List ProcessResult) (n : Nat) (rows : List (List GoString)),
      writeRows fs results n rows = ⟨rows ++ results.map record, none⟩ := by
  intro results
  induction results with
  | nil => intro n rows; simp [writeRows]
  | cons result rest ih =>
    intro n rows
    simp only [writeRows, hwrite n, ih]
    simp

theorem writeResults_ok (fs : FileSys) (results : List ProcessResult)
    (hcreate : fs.create = none) (hwrite : ∀ n, fs.write n = none) :
    writeResults fs results
      = ⟨["Input", "Result", "Success", "Error"].map goString :: results.map record, none⟩ := by
  simp only [writeResults, hcreate, hwrite 0, writeRows_ok fs hwrite]
  simp

/-- The row of a result without a transport or retry error. -/
theorem record_no_error (input : GoString) (r : ResponsePayload) :
    record ⟨input, r, none⟩
      = [input, goString r.Result, goString (if r.Success then "true" else "false"),
          goString r.Error] := by
  unfold record
  by_cases h : r.Error = ""
  · simp [h]
  · simp [h]

/-- C7: when the file can be created and written, `writeResults` writes the
header row and then exactly one row per result, in the order of the results.
Every row has exactly four fields: the input, the result text, the success
flag, which is `true` if and only if `Response.Success` holds (and `false`
otherwise), and the error text, which is the message of the transport or retry
error when that error is non-nil, otherwise the error string of the API when
it is not empty, otherwise the empty string. -/
theorem writeResults_rows (fs : FileSys) (results : List ProcessResult)
    (hcreate : fs.create = none) (hwrite : ∀ n, fs.write n = none) :
    writeResults fs results
        = ⟨["Input", "Result", "Success", "Error"].map goString :: results.map record, none⟩ ∧
      (results.map record).length = results.length ∧
      ∀ result : ProcessResult, ∃ flag text,
        record result
          = [result.Input, goString result.Response.Result, goString flag, goString text] ∧
        (flag = "true" ↔ result.Response.Success = true) ∧
        (flag = "false" ↔ result.Response.Success = false) ∧
        (∀ err, result.Error = some err → text = err.Error) ∧
        (result.Error = none → result.Response.Error ≠ "" → text = result.Response.Error) ∧
        (result.Error = none → result.Response.Error = "" → text = "") := by
  refine ⟨writeResults_ok fs results hcreate hwrite, by simp, ?_⟩
  intro result
  obtain ⟨input, r, e⟩ := result
  cases e with
  | some err =>
    refine ⟨if r.Success then "true" else "false", err.Error, rfl, ?_, ?_, ?_, ?_, ?_⟩
    · cases r.Success <;> decide
    · cases r.Success <;> decide
    · intro e he
      simp only [Option.some.injEq] at he
      rw [he]
    · intro h; simp at h
    · intro h; simp at h
  | none =>
    refine ⟨if r.Success then "true" else "false", r.Error, record_no_error input r,
      ?_, ?_, ?_, ?_, ?_⟩
    · cases r.Success <;> decide
    · cases r.Success <;> decide
    · intro e he; simp at he
    · intro _ _; rfl
    · intro _ h; exact h

theorem writeResults_rows_witness :
    (healthyFs.create = none ∧ ∀ n, healthyFs.write n = none) ∧
    writeResults healthyFs (resultsFrom mixedNet 0 sampleInputs)
      = ⟨[["Input", "Result", "Success", "Error"],
          ["a", "Acme Corp", "true", ""],
          ["b", "Bolt Ltd", "true", ""],
          ["c", "", "false", "after 3 attempts: decoding response: unexpected EOF"]].map
            (List.map goString), none⟩ :=
  ⟨⟨rfl, fun _ => rfl⟩,
    (writeResults_rows healthyFs (resultsFrom mixedNet 0 sampleInputs) rfl
      (fun _ => rfl)).1.trans (by decide)⟩

/-! ## The pipeline `processConcurrently`, then `writeResults` -/

/-- C9, as stated, fails: the only item succeeds on its first attempt (status
200 and a body that decodes), and its row has the success flag `false` and the
error text `no match`, those the API reported in the body. -/
theorem first_attempt_success_not_api_success :
    (attemptAt (apiRejectsNet 0) (goString "acme") 0).err = none ∧
    attempts (callAPI (apiRejectsNet 0) (goString "acme")).trace = 1 ∧
    (processConcurrently acmeInput apiRejectsNet (sequentialSchedule 1)).map
        (fun res => (writeResults healthyFs res).rows)
      = some ([["Input", "Result", "Success", "Error"],
          ["acme", "", "false", "no match"]].map (List.map goString)) := by
  decide

/-- C9, amended: if for every item the network call succeeds on the first
attempt, then in a run of `processConcurrently` that has returned exactly one
attempt was made per item, no result carries a transport or retry error, and
`writeResults` writes one row per item whose success flag and error text are
the ones the API reported in the decoded body: the flag is `true` exactly when
the body says success, and the error text is the error string of the body. -/
theorem first_attempt_success_rows (inputs : List GoString) (net : Nat → Nat → Outcome)
    (sched : List Action) (s : State) (fs : FileSys)
    (hfirst : ∀ (i : Nat) (input : GoString), inputs[i]? = some input →
      (attemptAt (net i) input 0).err = none)
    (hrun : run inputs net sched = some s) (hret : s.pc = Pc.returned)
    (hcreate : fs.create = none) (hwrite : ∀ n, fs.write n = none) :
    ∃ rows, writeResults fs s.results
        = ⟨["Input", "Result", "Success", "Error"].map goString :: rows, none⟩ ∧
      rows.length = inputs.length ∧
      ∀ (i : Nat) (input : GoString), inputs[i]? = some input →
        attempts (itemLog s.log i) = 1 ∧
        ∃ decode, net i 0 = .response 200 decode ∧
          s.results[i]? = some ⟨input, (decode ResponsePayload.zero).1, none⟩ ∧
          rows[i]? = some [input, goString (decode ResponsePayload.zero).1.Result,
            goString (if (decode ResponsePayload.zero).1.Success then "true" else "false"),
            goString (decode ResponsePayload.zero).1.Error] := by
  obtain ⟨hinv, _⟩ := run_inv hrun
  have hres := returned_results hinv hret
  refine ⟨s.results.map record, writeResults_ok fs s.results hcreate hwrite, ?_, ?_⟩
  · rw [List.length_map, hinv.results_len]
  · intro i input hinput
    obtain ⟨hatt, herr, _, decode, hnet, _, hresp⟩ :=
      callAPI_success_at (net i) input 1 (Nat.le_refl 1) (by decide)
        (fun a ha => absurd ha (by omega)) (hfirst i input hinput)
    have hi : i < s.workers.length := by
      rw [hinv.workers_len]; exact getElem?_lt_of_some hinput
    have hp := List.getElem?_eq_getElem hi
    have hfin := hinv.ret hret i _ hp
    rw [hfin] at hp
    have hlog := hinv.log_eq i _ hp
    simp only [Phase.called, if_true, itemTrace, hinput] at hlog
    have hslot : s.results[i]? = some ⟨input, (decode ResponsePayload.zero).1, none⟩ := by
      rw [hres, getElem?_resultsFrom, hinput, Nat.zero_add]
      simp only [Option.map, workerResult, herr]
      rw [hresp]
      rfl
    refine ⟨by rw [hlog]; exact hatt, decode, hnet, hslot, ?_⟩
    rw [List.getElem?_map, hslot, Option.map, record_no_error]

theorem first_attempt_success_rows_witness :
    ((∀ (i : Nat) (input : GoString), acmeInput[i]? = some input →
        (attemptAt (apiRejectsNet i) input 0).err = none) ∧
      healthyFs.create = none ∧ (∀ n, healthyFs.write n = none)) ∧
    ∃ s, run acmeInput apiRejectsNet (sequentialSchedule 1) = some s ∧ s.pc = Pc.returned ∧
      ∃ rows, writeResults healthyFs s.results
          = ⟨["Input", "Result", "Success", "Error"].map goString :: rows, none⟩ ∧
        rows.length = acmeInput.length ∧
        ∀ (i : Nat) (input : GoString), acmeInput[i]? = some input →
          attempts (itemLog s.log i) = 1 ∧
          ∃ decode, apiRejectsNet i 0 = .response 200 decode ∧
            s.results[i]? = some ⟨input, (decode ResponsePayload.zero).1, none⟩ ∧
            rows[i]? = some [input, goString (decode ResponsePayload.zero).1.Result,
              goString (if (decode ResponsePayload.zero).1.Success then "true" else "false"),
              goString (decode ResponsePayload.zero).1.Error] :=
  ⟨⟨fun _ _ _ => rfl, rfl, fun _ => rfl⟩, _, rfl, rfl,
    first_attempt_success_rows acmeInput apiRejectsNet (sequentialSchedule 1) _ healthyFs
      (fun _ _ _ => rfl) rfl rfl rfl (fun _ => rfl)⟩

end EntityResolution
